import Mathlib

/-!
Shallow embedding of the fuzzy-inference engine in `code_1.py`
(classes `FuzzySet`, `Variable`, `FuzzySystem` and the method
`FuzzySystem.run_simulation`).

Python reals are modelled as rationals (`ℚ`); where the float
infinities matter (the defuzzification guard) degrees are modelled by
the type `PyFloat` which adds the two infinite values.  Python dicts
are modelled as association lists in insertion order, with assignment
`d[k] = v` as `dictInsert` and `d.get(k, default)` via `dictGet`.
Fallible code returns `Except`: an uncaught Python exception is
`Except.error` with the exception's name, and the graceful
"variable not defined" early return of `run_simulation` is the
distinguished error `RunError.undefinedVariable`.
-/

attribute [local semireducible] Rat.mul Rat.inv Rat.add Rat.sub

/-- Decidable equality on results, so that concrete runs of the
embedded program can be checked by `decide`. -/
instance exceptDecEq {e a : Type} [DecidableEq e] [DecidableEq a] :
    DecidableEq (Except e a)
  | .error x, .error y =>
    if h : x = y then .isTrue (by rw [h])
    else .isFalse (by intro hc; cases hc; exact h rfl)
  | .error _, .ok _ => .isFalse (by intro hc; cases hc)
  | .ok _, .error _ => .isFalse (by intro hc; cases hc)
  | .ok x, .ok y =>
    if h : x = y then .isTrue (by rw [h])
    else .isFalse (by intro hc; cases hc; exact h rfl)

/-- Python float values that can reach the defuzzification loop:
finite numbers plus the two infinities tested by
`degree in [float("inf"), float("-inf")]`. -/
inductive PyFloat where
  | fin (q : ℚ)
  | pinf
  | ninf
deriving DecidableEq, Repr

/-- Whether a `PyFloat` is a finite number. -/
def PyFloat.isFin : PyFloat → Bool
  | .fin _ => true
  | _ => false

/-- Reading `d.get(k)` on an association-list dict: the value of the
first entry whose key is `k`. -/
def dictGet {α : Type} (d : List (String × α)) (k : String) : Option α :=
  (d.find? (fun p => p.1 = k)).map (fun p => p.2)

/-- Python dict assignment `d[k] = v`: replace the value at the
existing key in place (the dicts the program builds never hold a key
twice), otherwise append the new entry, preserving insertion order. -/
def dictInsert {α : Type} (d : List (String × α)) (k : String) (v : α) :
    List (String × α) :=
  match d with
  | [] => [(k, v)]
  | p :: rest => if p.1 = k then (k, v) :: rest else p :: dictInsert rest k v

/-- Python `str.upper()`, modelled character-wise (the repository only
upper-cases ASCII type tokens such as `"tri"`/`"trap"`). -/
def pyUpper (s : String) : String := ⟨s.data.map Char.toUpper⟩

/-- Python division: raises `ZeroDivisionError` on a zero divisor. -/
def pyDiv (p q : ℚ) : Except String ℚ :=
  if q = 0 then .error "ZeroDivisionError" else .ok (p / q)

/-- State of `class FuzzySet`: `__init__` stores the name, the
upper-cased type string and the parameter list unchecked. -/
structure FuzzySet where
  name : String
  type : String
  values : List ℚ
deriving DecidableEq, Repr

/-- Calling `FuzzySet(name, type_, values)` — the constructor body;
it never fails (there is no parameter validation in `__init__`). -/
def FuzzySet.make (name type_ : String) (values : List ℚ) :
    Except String FuzzySet :=
  .ok ⟨name, pyUpper type_, values⟩

/-- Method `FuzzySet.fuzzify`: piecewise-linear membership degree.  An
unrecognised type string falls off the `if/elif` chain and returns
Python `None` (`Option.none` here); unpacking `a, b, c = self.values`
with the wrong list length raises `ValueError`. -/
def FuzzySet.fuzzify (fs : FuzzySet) (x : ℚ) : Except String (Option ℚ) :=
  if fs.type = "TRI" then
    match fs.values with
    | [a, b, c] =>
      if a ≤ x ∧ x ≤ b then (pyDiv (x - a) (b - a)).map some
      else if b ≤ x ∧ x ≤ c then (pyDiv (c - x) (c - b)).map some
      else .ok (some 0)
    | _ => .error "ValueError"
  else if fs.type = "TRAP" then
    match fs.values with
    | [a, b, c, d] =>
      if a ≤ x ∧ x ≤ b then (pyDiv (x - a) (b - a)).map some
      else if b ≤ x ∧ x ≤ c then .ok (some 1)
      else if c ≤ x ∧ x ≤ d then (pyDiv (d - x) (d - c)).map some
      else .ok (some 0)
    | _ => .error "ValueError"
  else .ok none

/-- State of `class Variable`: name, upper-cased role string, advisory range,
and the dict of owned fuzzy sets. -/
structure Variable where
  name : String
  type : String
  range : List ℚ
  fuzzy_sets : List (String × FuzzySet)
deriving DecidableEq, Repr

/-- Method `Variable.add_fuzzy_set`:
`self.fuzzy_sets[fuzzy_set.name] = fuzzy_set`. -/
def Variable.add_fuzzy_set (v : Variable) (fs : FuzzySet) : Variable :=
  { v with fuzzy_sets := dictInsert v.fuzzy_sets fs.name fs }

/-- A rule tuple `(in_vars, out_var, out_set)`; each antecedent clause
is `(variable name, fuzzy-set name, operator string)`. -/
structure Rule where
  in_vars : List (String × String × String)
  out_var : String
  out_set : String
deriving DecidableEq, Repr

/-- State of `class FuzzySystem` (name/description omitted as
they never influence a run). -/
structure FuzzySystem where
  vars : List (String × Variable)
  rules : List Rule
deriving DecidableEq, Repr

/-- Method `FuzzySystem.add_variable`. -/
def FuzzySystem.add_variable (s : FuzzySystem) (v : Variable) : FuzzySystem :=
  { s with vars := dictInsert s.vars v.name v }

/-- Method `FuzzySystem.add_rule`. -/
def FuzzySystem.add_rule (s : FuzzySystem) (r : Rule) : FuzzySystem :=
  { s with rules := s.rules ++ [r] }

/-- How a run can fail: the guarded early return for an unknown input
variable (which prints and returns `None`), or an uncaught exception. -/
inductive RunError where
  | undefinedVariable (name : String)
  | exn (msg : String)
deriving DecidableEq, Repr

/-- Lift an exception-carrying computation into the run monad. -/
def exnLift {α : Type} : Except String α → Except RunError α
  | .ok a => .ok a
  | .error m => .error (.exn m)

/-- Per-run fuzzified degrees: variable name → fuzzy-set name → degree
(`none` is the Python `None` an unrecognised shape produces). -/
abbrev Fv := List (String × List (String × Option ℚ))

/-- The dict comprehension of lines 59–62:
`{fs_name: fs.fuzzify(crisp_value) for fs_name, fs in variable.fuzzy_sets.items()}`. -/
def fuzzifyVariable (v : Variable) (x : ℚ) :
    Except String (List (String × Option ℚ)) :=
  v.fuzzy_sets.foldlM (fun acc p => do
    let d ← p.2.fuzzify x
    pure (dictInsert acc p.1 d)) []

/-- One entry of the loop of lines 53–62: fuzzify one supplied crisp
input; an unknown variable name aborts the whole run with the guarded
early return. -/
def fuzzStep (sys : FuzzySystem) (acc : Fv) (p : String × ℚ) :
    Except RunError Fv :=
  match dictGet sys.vars p.1 with
  | none => .error (.undefinedVariable p.1)
  | some v => do
      let degs ← exnLift (fuzzifyVariable v p.2)
      pure (dictInsert acc p.1 degs)

/-- Lines 53–62 as a fold of `fuzzStep` over the supplied inputs. -/
def fuzzifyInputs (sys : FuzzySystem) (crisp : List (String × ℚ)) :
    Except RunError Fv :=
  crisp.foldlM (fuzzStep sys) []

/-- Line 70: `fuzzified_values[var_name].get(set_name, 0)`.  A missing
variable key raises `KeyError`; a missing set name defaults to the
number `0`; the stored value itself may be Python `None`. -/
def getDegree (fv : Fv) (vn sn : String) : Except String (Option ℚ) :=
  match dictGet fv vn with
  | none => .error "KeyError"
  | some m => .ok ((dictGet m sn).getD (some 0))

/-- Lines 71–79: one step of the antecedent fold.  `min`/`max`/`1 - d`
against Python `None` raises `TypeError`; an unrecognised operator
string falls to the final `else` and behaves as `and`. -/
def combine (acc : ℚ) (deg : Option ℚ) (op : String) : Except String ℚ :=
  match deg with
  | none => .error "TypeError"
  | some d =>
    if op = "and" then .ok (min acc d)
    else if op = "or" then .ok (max acc d)
    else if op = "and_not" then .ok (min acc (1 - d))
    else .ok (min acc d)

/-- One clause of the loop of lines 69–79: fetch the degree, then
combine it into the accumulator. -/
def antStep (fv : Fv) (acc : ℚ) (cl : String × String × String) :
    Except String ℚ := do
  let deg ← getDegree fv cl.1 cl.2.1
  combine acc deg cl.2.2

/-- Lines 67–79: the firing-strength left fold, accumulator started at 1. -/
def evalAntecedents (fv : Fv) (ants : List (String × String × String)) :
    Except String ℚ :=
  ants.foldlM (antStep fv) 1

/-- Aggregated output degrees: output-variable name → set name → degree. -/
abbrev Inferred := List (String × List (String × ℚ))

/-- One rule of the loop of lines 65–86: evaluate the rule, then
aggregate its strength into `inferred_outputs[out_var][out_set]` by
`max` with the existing value (lines 81–86). -/
def aggStep (fv : Fv) (acc : Inferred) (r : Rule) : Except String Inferred := do
  let s ← evalAntecedents fv r.in_vars
  let out := (dictGet acc r.out_var).getD []
  pure (dictInsert acc r.out_var
    (dictInsert out r.out_set (max ((dictGet out r.out_set).getD 0) s)))

/-- Lines 65–86: evaluate every rule and aggregate its strength. -/
def aggregateAll (rules : List Rule) (fv : Fv) : Except String Inferred :=
  rules.foldlM (aggStep fv) []

/-- Line 97: `sum(fs.values) / len(fs.values)` once the length is known
to be nonzero. -/
def meanParams (fs : FuzzySet) : ℚ :=
  fs.values.sum / (fs.values.length : ℚ)

/-- Lines 93–99: one iteration of the defuzzification loop over a
`(set name, degree)` pair: skip infinite degrees, look the set up
(`KeyError` if absent), average its parameters (`ZeroDivisionError` on
an empty list) and accumulate numerator and denominator. -/
def defuzzStep (v : Variable) (acc : ℚ × ℚ) (p : String × PyFloat) :
    Except String (ℚ × ℚ) :=
  match p.2 with
  | .pinf => .ok acc
  | .ninf => .ok acc
  | .fin d =>
    match dictGet v.fuzzy_sets p.1 with
    | none => .error "KeyError"
    | some fs =>
      if fs.values.length = 0 then .error "ZeroDivisionError"
      else .ok (acc.1 + d * meanParams fs, acc.2 + d)

/-- Lines 90–101 for a single output variable: fold the pairs, then
`numerator / denominator if denominator > 0 else 0`. -/
def defuzzOne (v : Variable) (output : List (String × PyFloat)) :
    Except String ℚ := do
  let nd ← output.foldlM (defuzzStep v) (0, 0)
  pure (if nd.2 > 0 then nd.1 / nd.2 else 0)

/-- One output variable of the loop of lines 88–101:
`self.variables[var_name]` raises `KeyError` if the consequent
variable is not in the model, then the variable is defuzzified. -/
def defuzzVarStep (sys : FuzzySystem) (acc : List (String × ℚ))
    (p : String × List (String × ℚ)) : Except RunError (List (String × ℚ)) :=
  match dictGet sys.vars p.1 with
  | none => .error (.exn "KeyError")
  | some v => do
      let r ← exnLift (defuzzOne v (p.2.map (fun q => (q.1, PyFloat.fin q.2))))
      pure (dictInsert acc p.1 r)

/-- Lines 88–101: defuzzify every output variable present in
`inferred_outputs`. -/
def defuzzifyAll (sys : FuzzySystem) (inferred : Inferred) :
    Except RunError (List (String × ℚ)) :=
  inferred.foldlM (defuzzVarStep sys) []

/-- Method `FuzzySystem.run_simulation`: fuzzification, inference with
aggregation, defuzzification. -/
def FuzzySystem.run_simulation (sys : FuzzySystem)
    (crisp : List (String × ℚ)) : Except RunError (List (String × ℚ)) := do
  let fv ← fuzzifyInputs sys crisp
  let inferred ← exnLift (aggregateAll sys.rules fv)
  defuzzifyAll sys inferred

/-! ### Specification-side reference definitions

These follow the spec's words (sections 4.1, 4.4, 4.5, 4.6), to be
compared with the embedded code above. -/

/-- Reference triangular membership from the spec: `(x−a)/(b−a)` on
`[a,b]`, `(c−x)/(c−b)` on `[b,c]`, `0` elsewhere. -/
def refTri (a b c x : ℚ) : ℚ :=
  if a ≤ x ∧ x ≤ b then (x - a) / (b - a)
  else if b ≤ x ∧ x ≤ c then (c - x) / (c - b)
  else 0

/-- Reference trapezoidal membership from the spec: `(x−a)/(b−a)` on
`[a,b]`, `1` on `[b,c]`, `(d−x)/(d−c)` on `[c,d]`, `0` elsewhere. -/
def refTrap (a b c d x : ℚ) : ℚ :=
  if a ≤ x ∧ x ≤ b then (x - a) / (b - a)
  else if b ≤ x ∧ x ≤ c then 1
  else if c ≤ x ∧ x ≤ d then (d - x) / (d - c)
  else 0

/-- Spec combine table (4.4): `min` for `and`, `max` for `or`,
`min(acc, 1 − d)` for `and_not`, `min` for any unrecognised token. -/
def specCombine (acc d : ℚ) (op : String) : ℚ :=
  if op = "and" then min acc d
  else if op = "or" then max acc d
  else if op = "and_not" then min acc (1 - d)
  else min acc d

/-- Spec clause degree: `fuzzifiedDegrees[variableName].get(setName, 0)`,
a missing fuzzy-set name yielding 0.  (A missing variable or a stored
`None` also reads as 0 here; those cases cannot occur on a successful
evaluation, which is all the refinement theorem quantifies over.) -/
def specClauseDegree (fv : Fv) (vn sn : String) : ℚ :=
  match dictGet fv vn with
  | none => 0
  | some m => ((dictGet m sn).getD (some 0)).getD 0

/-- Spec firing strength (4.4): a left fold over the clauses in order,
accumulator initialised to 1. -/
def specFiringStrength (fv : Fv) (ants : List (String × String × String)) : ℚ :=
  ants.foldl (fun acc cl => specCombine acc (specClauseDegree fv cl.1 cl.2.1) cl.2.2) 1

/-- Spec defuzzification numerator (4.6): sum of
`degree × mean(parameters)` over the pairs, pairs with an infinite
degree excluded. -/
def specDefuzzNum (v : Variable) (output : List (String × PyFloat)) : ℚ :=
  (output.filterMap (fun p =>
    match p.2 with
    | .fin d => some (d * ((dictGet v.fuzzy_sets p.1).map meanParams).getD 0)
    | _ => none)).sum

/-- Spec defuzzification denominator (4.6): sum of the degrees, pairs
with an infinite degree excluded. -/
def specDefuzzDen (output : List (String × PyFloat)) : ℚ :=
  (output.filterMap (fun p =>
    match p.2 with
    | .fin d => some d
    | _ => none)).sum

/-- The aggregated degree the run holds for an output pair: 0 when the
pair was never concluded. -/
def aggLookup (inferred : Inferred) (ov os : String) : ℚ :=
  (dictGet ((dictGet inferred ov).getD []) os).getD 0

/-- The firing strengths of the rules concluding a given output pair,
in rule order. -/
def ruleStrengths (rules : List Rule) (fv : Fv) (ov os : String) : List ℚ :=
  rules.filterMap (fun r =>
    if r.out_var = ov ∧ r.out_set = os then
      match evalAntecedents fv r.in_vars with
      | .ok s => some s
      | .error _ => none
    else none)

/-- Whether a fallible computation succeeded. -/
def exceptIsOk {e a : Type} : Except e a → Bool
  | .ok _ => true
  | .error _ => false

/-- Whether a named fuzzy set of a variable exists and has a nonempty
parameter list (so the defuzzification loop can average it). -/
def setResolvable (v : Variable) (sn : String) : Bool :=
  match dictGet v.fuzzy_sets sn with
  | some fs => fs.values.length != 0
  | none => false

/-- Whether a rule's consequent names a defined variable and, within
it, a fuzzy set with a nonempty parameter list. -/
def consequentResolvable (sys : FuzzySystem) (r : Rule) : Bool :=
  match dictGet sys.vars r.out_var with
  | some v => setResolvable v r.out_set
  | none => false

/-- Whether a crisp-input entry either names an undefined variable or
fuzzifies without raising. -/
def inputFuzzifiable (sys : FuzzySystem) (p : String × ℚ) : Bool :=
  match dictGet sys.vars p.1 with
  | some v => exceptIsOk (fuzzifyVariable v p.2)
  | none => true

/-! ### Concrete models used by counterexamples and witnesses -/

/-- An input variable `a` with one well-formed triangular set `s`. -/
def varIn : Variable := ⟨"a", "IN", [0, 10], [("s", ⟨"s", "TRI", [0, 1, 2]⟩)]⟩

/-- An output variable `o` with one well-formed triangular set `t`. -/
def varOut : Variable := ⟨"o", "OUT", [0, 10], [("t", ⟨"t", "TRI", [0, 1, 2]⟩)]⟩

/-- A model whose only rule names antecedent variable `b`, which is
not among the supplied inputs. -/
def sysMissingAntVar : FuzzySystem :=
  ⟨[("a", varIn)], [⟨[("b", "s", "and")], "a", "s"⟩]⟩

/-- A model whose only rule concludes on variable `z`, absent from the
model. -/
def sysMissingConsVar : FuzzySystem :=
  ⟨[("a", varIn)], [⟨[("a", "s", "and")], "z", "t"⟩]⟩

/-- A model whose only rule concludes on a set name absent from the
output variable's fuzzy sets. -/
def sysMissingConsSet : FuzzySystem :=
  ⟨[("a", varIn), ("o", varOut)], [⟨[("a", "s", "and")], "o", "nosuch"⟩]⟩

/-- A model whose input set has an unrecognised shape, so its
fuzzified degree is Python `None`. -/
def sysNoneDegree : FuzzySystem :=
  ⟨[("a", ⟨"a", "IN", [0, 10], [("s", ⟨"s", "GAUSS", [0]⟩)]⟩), ("o", varOut)],
   [⟨[("a", "s", "and")], "o", "t"⟩]⟩

/-- A model whose consequent set exists but has an empty parameter
list, so its centroid divides by `len [] = 0`. -/
def sysEmptyParams : FuzzySystem :=
  ⟨[("a", varIn), ("o", ⟨"o", "OUT", [0, 10], [("t", ⟨"t", "TRI", []⟩)]⟩)],
   [⟨[("a", "s", "and")], "o", "t"⟩]⟩

/-- A model with a degenerate triangular span `a = b = 0`, permitted
by the spec's data-model invariant `a ≤ b ≤ c`. -/
def sysDegenerate : FuzzySystem :=
  ⟨[("a", ⟨"a", "IN", [0, 10], [("s", ⟨"s", "TRI", [0, 0, 1]⟩)]⟩)], []⟩

/-- A well-formed one-rule model: input `a`, output `o`, rule
`a is s → o is t`. -/
def sysWellFormed : FuzzySystem :=
  ⟨[("a", varIn), ("o", varOut)], [⟨[("a", "s", "and")], "o", "t"⟩]⟩

/-- Fuzzified degrees used to exercise the rule fold. -/
def fvW : Fv := [("a", [("s", some (1/2)), ("t", some (3/4))])]

/-- A four-clause antecedent exercising every operator, including an
unrecognised one and a missing set name. -/
def antsW : List (String × String × String) :=
  [("a", "s", "and"), ("a", "t", "or"), ("a", "u", "and_not"), ("a", "s", "xyz")]

/-- An all-`or` antecedent list. -/
def antsOr : List (String × String × String) :=
  [("a", "s", "or"), ("a", "t", "or"), ("a", "u", "or")]

/-- Two rules concluding the same output pair, for the aggregation
witness. -/
def rulesW : List Rule :=
  [⟨[("a", "s", "and")], "o", "u"⟩, ⟨[("a", "t", "and")], "o", "u"⟩]

/-- An output variable with two sets, for the defuzzification witness. -/
def varDefuzz : Variable :=
  ⟨"o", "OUT", [0, 10], [("s1", ⟨"s1", "TRI", [0, 1, 2]⟩), ("s2", ⟨"s2", "TRI", [3, 3, 3]⟩)]⟩

/-- Aggregated pairs including an infinite degree, for the
defuzzification witness. -/
def outputW : List (String × PyFloat) :=
  [("s1", .fin (1/2)), ("s2", .pinf)]

/-! ### Decidable side conditions -/

/-- All stored degrees of a fuzzified dict are numbers within `[0, 1]`. -/
def fvDegreesUnit (fv : Fv) : Bool :=
  fv.all (fun p => p.2.all (fun q =>
    q.2.isSome && decide (0 ≤ q.2.getD 0) && decide (q.2.getD 0 ≤ 1)))

/-- All stored degrees of a fuzzified dict are numbers (not Python
`None`). -/
def fvDegreesSome (fv : Fv) : Bool :=
  fv.all (fun p => p.2.all (fun q => q.2.isSome))

/-- Every clause's variable name is a key of the fuzzified dict. -/
def antsVarsPresent (fv : Fv) (ants : List (String × String × String)) : Bool :=
  ants.all (fun cl => (dictGet fv cl.1).isSome)

/-- Every clause's operator is the token `"or"`. -/
def antsAllOr (ants : List (String × String × String)) : Bool :=
  ants.all (fun cl => decide (cl.2.2 = "or"))

/-- Every rule's antecedent variables are keys of the fuzzified dict. -/
def rulesAntVarsPresent (fv : Fv) (rules : List Rule) : Bool :=
  rules.all (fun r => antsVarsPresent fv r.in_vars)

/-- Every rule's consequent resolves to a defined variable and a
nonempty-parameter fuzzy set. -/
def rulesConsequentsResolvable (sys : FuzzySystem) : Bool :=
  sys.rules.all (consequentResolvable sys)

/-- Every supplied input either names an undefined variable or
fuzzifies without raising. -/
def inputsFuzzifiable (sys : FuzzySystem) (crisp : List (String × ℚ)) : Bool :=
  crisp.all (inputFuzzifiable sys)

/-- Every finite-degree pair of an aggregated output resolves to a
nonempty-parameter fuzzy set of the variable. -/
def outputResolvable (v : Variable) (output : List (String × PyFloat)) : Bool :=
  output.all (fun p => !p.2.isFin || setResolvable v p.1)

/-- All aggregated degrees of an output are zero. -/
def allZeroDegrees (out : List (String × ℚ)) : Bool :=
  out.all (fun q => q.2 == 0)

/-! ### Association-list dictionary lemmas -/

/-- Looking a key up after a cons. -/
theorem dictGet_cons {α : Type} (a : String) (b : α) (d : List (String × α))
    (k : String) :
    dictGet ((a, b) :: d) k = if a = k then some b else dictGet d k := by
  by_cases h : a = k <;> simp [dictGet, List.find?, h]

/-- Looking a key up after an assignment. -/
theorem dictGet_dictInsert {α : Type} (d : List (String × α)) (k k' : String)
    (v : α) :
    dictGet (dictInsert d k v) k' = if k' = k then some v else dictGet d k' := by
  induction d with
  | nil =>
    by_cases h : k' = k
    · simp [dictInsert, dictGet, List.find?, h]
    · simp [dictInsert, dictGet, List.find?, h, Ne.symm h]
  | cons p rest ih =>
    obtain ⟨a, b⟩ := p
    by_cases hak : a = k
    · subst hak
      by_cases h : k' = a
      · simp [dictInsert, dictGet_cons, h]
      · simp [dictInsert, dictGet_cons, h, Ne.symm h]
    · by_cases h : k' = k
      · subst h
        have hak' : a ≠ k' := fun hs => hak hs
        simp [dictInsert, hak, dictGet_cons, ih, hak']
      · simp [dictInsert, hak, dictGet_cons, ih, h]

/-- A successful lookup returns an entry of the dict. -/
theorem mem_of_dictGet {α : Type} {d : List (String × α)} {k : String} {v : α}
    (h : dictGet d k = some v) : (k, v) ∈ d := by
  unfold dictGet at h
  cases hf : d.find? (fun p => p.1 = k) with
  | none => rw [hf] at h; cases h
  | some p =>
    rw [hf] at h
    have hm := List.mem_of_find?_eq_some hf
    have hp := List.find?_some hf
    simp at h hp
    obtain ⟨a, b⟩ := p
    simp at hp
    subst hp
    cases h
    exact hm

/-- An entry of an updated dict is the new pair or an old entry. -/
theorem mem_dictInsert {α : Type} {d : List (String × α)} {k : String} {v : α}
    {p : String × α} (h : p ∈ dictInsert d k v) : p = (k, v) ∨ p ∈ d := by
  induction d with
  | nil => simp [dictInsert] at h; simp [h]
  | cons q rest ih =>
    by_cases hq : q.1 = k
    · simp [dictInsert, hq] at h
      rcases h with h | h
      · exact Or.inl h
      · exact Or.inr (List.mem_cons_of_mem _ h)
    · simp [dictInsert, hq] at h
      rcases h with h | h
      · exact Or.inr (by simp [h])
      · rcases ih h with h' | h'
        · exact Or.inl h'
        · exact Or.inr (List.mem_cons_of_mem _ h')

/-- Reduction of a successful bind in the `Except` monad. -/
theorem exceptBind_ok {e a b : Type} (x : a) (f : a → Except e b) :
    (Except.ok x >>= f) = f x := rfl

/-- Reduction of a failed bind in the `Except` monad. -/
theorem exceptBind_error {e a b : Type} (m : e) (f : a → Except e b) :
    ((Except.error m : Except e a) >>= f) = Except.error m := rfl

/-! ### Claim theorems -/

/-- Helper for C6: on nondegenerate spans the embedded triangular
branch equals the reference piecewise formula. -/
theorem fuzzify_tri_eq (nm : String) (a b c x : ℚ) (hab : a < b) (hbc : b < c) :
    FuzzySet.fuzzify ⟨nm, "TRI", [a, b, c]⟩ x = .ok (some (refTri a b c x)) := by
  have h1 : b - a ≠ 0 := sub_ne_zero.mpr (ne_of_gt hab)
  have h2 : c - b ≠ 0 := sub_ne_zero.mpr (ne_of_gt hbc)
  simp only [FuzzySet.fuzzify, refTri]
  split_ifs <;> simp_all [pyDiv, Except.map]

/-- Helper for C6: on nondegenerate outer spans the embedded
trapezoidal branch equals the reference piecewise formula. -/
theorem fuzzify_trap_eq (nm : String) (a b c d x : ℚ) (hab : a < b) (hcd : c < d) :
    FuzzySet.fuzzify ⟨nm, "TRAP", [a, b, c, d]⟩ x = .ok (some (refTrap a b c d x)) := by
  have h1 : b - a ≠ 0 := sub_ne_zero.mpr (ne_of_gt hab)
  have h2 : d - c ≠ 0 := sub_ne_zero.mpr (ne_of_gt hcd)
  simp only [FuzzySet.fuzzify, refTrap]
  split_ifs <;> simp_all [pyDiv, Except.map]

/-- Helper for C6: the reference triangular degree lies in `[0, 1]`. -/
theorem refTri_bounds (a b c x : ℚ) (hab : a < b) (hbc : b < c) :
    0 ≤ refTri a b c x ∧ refTri a b c x ≤ 1 := by
  unfold refTri
  split_ifs with h1 h2
  · refine ⟨div_nonneg (by linarith [h1.1]) (by linarith), ?_⟩
    rw [div_le_one (by linarith)]
    linarith [h1.2]
  · refine ⟨div_nonneg (by linarith [h2.2]) (by linarith), ?_⟩
    rw [div_le_one (by linarith)]
    linarith [h2.1]
  · norm_num

/-- Helper for C6: the reference trapezoidal degree lies in `[0, 1]`. -/
theorem refTrap_bounds (a b c d x : ℚ) (hab : a < b) (hcd : c < d) :
    0 ≤ refTrap a b c d x ∧ refTrap a b c d x ≤ 1 := by
  unfold refTrap
  split_ifs with h1 h2 h3
  · refine ⟨div_nonneg (by linarith [h1.1]) (by linarith), ?_⟩
    rw [div_le_one (by linarith)]
    linarith [h1.2]
  · norm_num
  · refine ⟨div_nonneg (by linarith [h3.2]) (by linarith), ?_⟩
    rw [div_le_one (by linarith)]
    linarith [h3.1]
  · norm_num

/-- C6: for valid parameters (triangular `a<b<c`; trapezoidal
`a<b≤c<d`) and every rational input, `fuzzify` returns exactly the
spec's piecewise-linear reference value, and that value lies in
`[0, 1]`. -/
theorem C6_fuzzify_matches_reference (nm nm2 : String)
    (a b c a2 b2 c2 d2 x : ℚ) (hab : a < b) (hbc : b < c)
    (h1 : a2 < b2) (h2 : b2 ≤ c2) (h3 : c2 < d2) :
    (FuzzySet.fuzzify ⟨nm, "TRI", [a, b, c]⟩ x = .ok (some (refTri a b c x)) ∧
      0 ≤ refTri a b c x ∧ refTri a b c x ≤ 1) ∧
    (FuzzySet.fuzzify ⟨nm2, "TRAP", [a2, b2, c2, d2]⟩ x
        = .ok (some (refTrap a2 b2 c2 d2 x)) ∧
      0 ≤ refTrap a2 b2 c2 d2 x ∧ refTrap a2 b2 c2 d2 x ≤ 1) :=
  ⟨⟨fuzzify_tri_eq nm a b c x hab hbc, refTri_bounds a b c x hab hbc⟩,
   ⟨fuzzify_trap_eq nm2 a2 b2 c2 d2 x h1 h3, refTrap_bounds a2 b2 c2 d2 x h1 h3⟩⟩

/-- Witness for C6 at `TRI(0,1,2)`, `TRAP(0,1,2,3)`, `x = 1/2`. -/
theorem C6_witness :
    ((0:ℚ) < 1 ∧ (1:ℚ) < 2 ∧ (0:ℚ) < 1 ∧ (1:ℚ) ≤ 2 ∧ (2:ℚ) < 3) ∧
    ((FuzzySet.fuzzify ⟨"t", "TRI", [0, 1, 2]⟩ (1/2)
        = .ok (some (refTri 0 1 2 (1/2))) ∧
      0 ≤ refTri 0 1 2 (1/2) ∧ refTri 0 1 2 (1/2) ≤ 1) ∧
     (FuzzySet.fuzzify ⟨"u", "TRAP", [0, 1, 2, 3]⟩ (1/2)
        = .ok (some (refTrap 0 1 2 3 (1/2))) ∧
      0 ≤ refTrap 0 1 2 3 (1/2) ∧ refTrap 0 1 2 3 (1/2) ≤ 1)) :=
  ⟨⟨by decide, by decide, by decide, by decide, by decide⟩,
   C6_fuzzify_matches_reference "t" "u" 0 1 2 0 1 2 3 (1/2)
     (by decide) (by decide) (by decide) (by decide) (by decide)⟩

/-- C9 counterexample: a TRIANGULAR membership function built with
only two parameters is accepted at construction time — no
`MalformedMembershipFunctionError` exists in the program — and the
malformed set raises only later, at fuzzification time. -/
theorem C9_counterexample :
    FuzzySet.make "s" "TRI" [0, 1] = .ok ⟨"s", "TRI", [0, 1]⟩ ∧
    FuzzySet.fuzzify ⟨"s", "TRI", [0, 1]⟩ 5 = .error "ValueError" :=
  ⟨by decide, by decide⟩

/-- C9 (amended): construction never validates the parameter count —
it always succeeds — and a wrong count for the declared shape instead
fails at fuzzification time, when the parameter list is unpacked. -/
theorem C9_wrong_count_fails_at_fuzzify (nm ty : String) (vals : List ℚ) (x : ℚ)
    (hbad : (pyUpper ty = "TRI" ∧ vals.length ≠ 3) ∨
            (pyUpper ty = "TRAP" ∧ vals.length ≠ 4)) :
    FuzzySet.make nm ty vals = .ok ⟨nm, pyUpper ty, vals⟩ ∧
    FuzzySet.fuzzify ⟨nm, pyUpper ty, vals⟩ x = .error "ValueError" := by
  refine ⟨rfl, ?_⟩
  rcases hbad with ⟨hty, hlen⟩ | ⟨hty, hlen⟩ <;> rw [hty]
  · rcases vals with _ | ⟨a, _ | ⟨b, _ | ⟨c, _ | ⟨d, rest⟩⟩⟩⟩
    · rfl
    · rfl
    · rfl
    · simp at hlen
    · rfl
  · rcases vals with _ | ⟨a, _ | ⟨b, _ | ⟨c, _ | ⟨d, _ | ⟨e, rest⟩⟩⟩⟩⟩
    · rfl
    · rfl
    · rfl
    · rfl
    · simp at hlen
    · rfl

/-- Witness for C9 (amended) at shape `"tri"` with two parameters. -/
theorem C9_witness :
    ((pyUpper "tri" = "TRI" ∧ ([0, 1] : List ℚ).length ≠ 3) ∨
     (pyUpper "tri" = "TRAP" ∧ ([0, 1] : List ℚ).length ≠ 4)) ∧
    (FuzzySet.make "s2" "tri" [0, 1] = .ok ⟨"s2", pyUpper "tri", [0, 1]⟩ ∧
     FuzzySet.fuzzify ⟨"s2", pyUpper "tri", [0, 1]⟩ 7 = .error "ValueError") :=
  ⟨Or.inl ⟨by decide, by decide⟩,
   C9_wrong_count_fails_at_fuzzify "s2" "tri" [0, 1] 7
     (Or.inl ⟨by decide, by decide⟩)⟩

/-- C10: for every fuzzy set whose shape type (after upper-casing) is
neither `"TRI"` nor `"TRAP"` and every input, `fuzzify` returns Python
`None` — neither a degree nor a raised error — and that `None` is not
combinable downstream: every `combine` step on it raises `TypeError`. -/
theorem C10_unknown_shape_returns_none (nm ty : String) (vals : List ℚ) (x : ℚ)
    (h1 : pyUpper ty ≠ "TRI") (h2 : pyUpper ty ≠ "TRAP") :
    FuzzySet.fuzzify ⟨nm, pyUpper ty, vals⟩ x = .ok none ∧
    ∀ acc : ℚ, ∀ op : String, combine acc none op = .error "TypeError" := by
  refine ⟨?_, fun acc op => rfl⟩
  simp [FuzzySet.fuzzify, h1, h2]

/-- Witness for C10 at the shape token `"gauss"`. -/
theorem C10_witness :
    (pyUpper "gauss" ≠ "TRI" ∧ pyUpper "gauss" ≠ "TRAP") ∧
    FuzzySet.fuzzify ⟨"g", pyUpper "gauss", [0, 1]⟩ 5 = .ok none :=
  ⟨⟨by decide, by decide⟩,
   (C10_unknown_shape_returns_none "g" "gauss" [0, 1] 5 (by decide) (by decide)).1⟩

/-- C3 counterexample: five models and an input mapping whose names
are all defined and whose fuzzification succeeds, yet the run dies
with an uncaught exception — for a rule antecedent naming a variable
not among the inputs, a consequent variable absent from the model, a
consequent set name absent from the output variable's sets, an
antecedent degree that is Python `None`, and a consequent set with an
empty parameter list. -/
theorem C3_counterexample :
    (fuzzifyInputs sysMissingAntVar [("a", 1)] = .ok [("a", [("s", some 1)])] ∧
      sysMissingAntVar.run_simulation [("a", 1)] = .error (.exn "KeyError")) ∧
    sysMissingConsVar.run_simulation [("a", 1)] = .error (.exn "KeyError") ∧
    sysMissingConsSet.run_simulation [("a", 1)] = .error (.exn "KeyError") ∧
    (fuzzifyInputs sysNoneDegree [("a", 1)] = .ok [("a", [("s", none)])] ∧
      sysNoneDegree.run_simulation [("a", 1)] = .error (.exn "TypeError")) ∧
    (fuzzifyInputs sysEmptyParams [("a", 1)] = .ok [("a", [("s", some 1)])] ∧
      sysEmptyParams.run_simulation [("a", 1)] = .error (.exn "ZeroDivisionError")) :=
  ⟨⟨by decide, by decide⟩, by decide, by decide, ⟨by decide, by decide⟩,
   ⟨by decide, by decide⟩⟩

/-- C4 counterexample: a spec-legal degenerate triangular span makes
fuzzification of an earlier entry raise `ZeroDivisionError`, so a run
whose mapping does contain the undefined name `"bad"` fails with that
exception and not with the undefined-variable error. -/
theorem C4_counterexample :
    dictGet sysDegenerate.vars "bad" = none ∧
    sysDegenerate.run_simulation [("a", 0), ("bad", 1)]
      = .error (.exn "ZeroDivisionError") :=
  ⟨by decide, by decide⟩

/-- Helper for C1: combining a numeric degree never raises and agrees
with the spec's combine table. -/
theorem combine_some_eq (acc d : ℚ) (op : String) :
    combine acc (some d) op = .ok (specCombine acc d op) := by
  simp only [combine, specCombine]
  split_ifs <;> rfl

/-- Helper for C1: a successful degree lookup yields the spec's clause
degree. -/
theorem getDegree_ok_spec {fv : Fv} {vn sn : String} {d : ℚ}
    (h : getDegree fv vn sn = .ok (some d)) :
    specClauseDegree fv vn sn = d := by
  unfold getDegree at h
  cases hv : dictGet fv vn with
  | none => rw [hv] at h; cases h
  | some m =>
    rw [hv] at h
    injection h with h
    simp only [specClauseDegree, hv, h]
    rfl

/-- Helper for C1: a successful antecedent fold from any accumulator
computes the spec's pure left fold from that accumulator. -/
theorem antFold_ok_spec (fv : Fv) (ants : List (String × String × String))
    (acc s : ℚ) (h : ants.foldlM (antStep fv) acc = .ok s) :
    s = ants.foldl (fun a cl =>
      specCombine a (specClauseDegree fv cl.1 cl.2.1) cl.2.2) acc := by
  induction ants generalizing acc with
  | nil =>
    simp only [List.foldlM] at h
    injection h with h
    simp [h.symm]
  | cons cl rest ih =>
    simp only [List.foldlM] at h
    cases hstep : antStep fv acc cl with
    | error e =>
      rw [hstep] at h
      cases h
    | ok acc2 =>
      rw [hstep] at h
      have h2 : List.foldlM (antStep fv) acc2 rest = .ok s := h
      simp only [List.foldl]
      have hacc2 : acc2 = specCombine acc (specClauseDegree fv cl.1 cl.2.1) cl.2.2 := by
        unfold antStep at hstep
        cases hd : getDegree fv cl.1 cl.2.1 with
        | error e => rw [hd] at hstep; cases hstep
        | ok deg =>
          rw [hd] at hstep
          cases deg with
          | none => cases hstep
          | some d =>
            have hstep2 : combine acc (some d) cl.2.2 = Except.ok acc2 := hstep
            rw [combine_some_eq] at hstep2
            injection hstep2 with hstep2
            rw [← hstep2, getDegree_ok_spec hd]
      rw [← hacc2]
      exact ih acc2 h2

/-- C1: whenever a rule's antecedent evaluation succeeds during a run,
the firing strength it produces equals the spec's left fold over the
clauses in order, starting from accumulator 1, with clause degree
`fuzzifiedDegrees[variableName].get(setName, 0)` (a missing set name
yields 0, not an error) and the combine table `min` for `and`, `max`
for `or`, `min(acc, 1 − d)` for `and_not`, and `min` for any
unrecognised operator token. -/
theorem C1_firing_strength_is_spec_fold (fv : Fv)
    (ants : List (String × String × String)) (s : ℚ)
    (h : evalAntecedents fv ants = .ok s) :
    s = specFiringStrength fv ants :=
  antFold_ok_spec fv ants 1 s h

/-- Witness for C1 on a four-clause rule exercising `and`, `or`,
`and_not`, an unrecognised operator, and a missing set name. -/
theorem C1_witness :
    evalAntecedents fvW antsW = .ok (1/2) ∧
    (1/2 : ℚ) = specFiringStrength fvW antsW :=
  ⟨by decide, C1_firing_strength_is_spec_fold fvW antsW (1/2) (by decide)⟩

/-- Helper for C2: with every stored degree a number in `[0, 1]` and
every clause variable present, an all-`or` antecedent fold keeps the
accumulator at 1. -/
theorem antFold_or_one (fv : Fv) (ants : List (String × String × String))
    (hdeg : fvDegreesUnit fv = true)
    (hvars : antsVarsPresent fv ants = true)
    (hor : antsAllOr ants = true) :
    ants.foldlM (antStep fv) (1:ℚ) = .ok 1 := by
  induction ants with
  | nil => rfl
  | cons cl rest ih =>
    simp only [antsVarsPresent, List.all_cons, Bool.and_eq_true] at hvars
    simp only [antsAllOr, List.all_cons, Bool.and_eq_true, decide_eq_true_eq] at hor
    obtain ⟨hv1, hvrest⟩ := hvars
    obtain ⟨ho1, horest⟩ := hor
    obtain ⟨m, hm⟩ := Option.isSome_iff_exists.mp hv1
    have hstep : antStep fv 1 cl = .ok 1 := by
      unfold antStep getDegree
      rw [hm]
      show combine 1 ((dictGet m cl.2.1).getD (some 0)) cl.2.2 = .ok 1
      cases hq : dictGet m cl.2.1 with
      | none =>
        rw [Option.getD_none, ho1, combine_some_eq]
        decide
      | some q =>
        have hqm : (cl.2.1, q) ∈ m := mem_of_dictGet hq
        have hmm : (cl.1, m) ∈ fv := mem_of_dictGet hm
        simp only [fvDegreesUnit, List.all_eq_true, Bool.and_eq_true,
          decide_eq_true_eq] at hdeg
        obtain ⟨⟨hsome, hge⟩, hle⟩ := hdeg (cl.1, m) hmm (cl.2.1, q) hqm
        obtain ⟨d, hd⟩ := Option.isSome_iff_exists.mp hsome
        rw [hd] at hle
        simp only [Option.getD_some] at hle
        have hd2 : q = some d := hd
        rw [Option.getD_some, hd2, ho1, combine_some_eq]
        simp [specCombine, max_eq_left hle]
    simp only [List.foldlM, hstep]
    exact ih hvrest horest

/-- C2: an `or` clause applied to the just-initialised accumulator 1
leaves it at 1 for any degree `d ∈ [0, 1]` (`max(1, d) = 1`), and a
rule consisting only of `or` clauses has firing strength exactly 1 for
every fuzzified input whose degrees are numbers in `[0, 1]` and whose
clause variables are present. -/
theorem C2_leading_or_pins_to_one (fv : Fv)
    (ants : List (String × String × String))
    (hdeg : fvDegreesUnit fv = true)
    (hvars : antsVarsPresent fv ants = true)
    (hor : antsAllOr ants = true) :
    (∀ d : ℚ, 0 ≤ d → d ≤ 1 → combine 1 (some d) "or" = .ok 1) ∧
    evalAntecedents fv ants = .ok 1 := by
  constructor
  · intro d _ hd1
    rw [combine_some_eq]
    simp [specCombine, max_eq_left hd1]
  · exact antFold_or_one fv ants hdeg hvars hor

/-- Witness for C2 on an all-`or` three-clause rule (one clause naming
a missing set). -/
theorem C2_witness :
    (fvDegreesUnit fvW = true ∧ antsVarsPresent fvW antsOr = true ∧
      antsAllOr antsOr = true) ∧
    evalAntecedents fvW antsOr = .ok 1 :=
  ⟨⟨by decide, by decide, by decide⟩,
   (C2_leading_or_pins_to_one fvW antsOr (by decide) (by decide) (by decide)).2⟩

/-- Helper for C5: when every finite-degree pair resolves, the
defuzzification fold succeeds and adds the spec's infinite-degree-
filtered sums to the starting accumulator. -/
theorem defuzzFold_spec (v : Variable) (output : List (String × PyFloat))
    (hres : outputResolvable v output = true) :
    ∀ n0 d0 : ℚ, output.foldlM (defuzzStep v) (n0, d0)
      = .ok (n0 + specDefuzzNum v output, d0 + specDefuzzDen output) := by
  induction output with
  | nil =>
    intro n0 d0
    simp [specDefuzzNum, specDefuzzDen]
    rfl
  | cons p rest ih =>
    intro n0 d0
    simp only [outputResolvable, List.all_cons, Bool.and_eq_true] at hres
    obtain ⟨hp, hrest⟩ := hres
    have ih2 := ih (by simpa [outputResolvable] using hrest)
    cases hpf : p.2 with
    | pinf =>
      have hstep : defuzzStep v (n0, d0) p = .ok (n0, d0) := by
        unfold defuzzStep; rw [hpf]
      rw [List.foldlM_cons, hstep, exceptBind_ok, ih2]
      simp only [specDefuzzNum, specDefuzzDen, List.filterMap_cons, hpf]
    | ninf =>
      have hstep : defuzzStep v (n0, d0) p = .ok (n0, d0) := by
        unfold defuzzStep; rw [hpf]
      rw [List.foldlM_cons, hstep, exceptBind_ok, ih2]
      simp only [specDefuzzNum, specDefuzzDen, List.filterMap_cons, hpf]
    | fin d =>
      rw [hpf, PyFloat.isFin] at hp
      simp only [Bool.not_true, Bool.false_or] at hp
      unfold setResolvable at hp
      cases hfs : dictGet v.fuzzy_sets p.1 with
      | none => rw [hfs] at hp; cases hp
      | some fs =>
        rw [hfs] at hp
        have hlen : fs.values.length ≠ 0 := by simpa using hp
        have hstep : defuzzStep v (n0, d0) p
            = .ok (n0 + d * meanParams fs, d0 + d) := by
          unfold defuzzStep
          rw [hpf, hfs]
          simp [hlen]
        rw [List.foldlM_cons, hstep, exceptBind_ok, ih2]
        simp only [specDefuzzNum, specDefuzzDen, List.filterMap_cons, hpf,
          hfs, Option.map_some, Option.getD_some, List.sum_cons]
        refine congrArg Except.ok ?_
        refine Prod.ext ?_ ?_ <;> dsimp <;> ring

/-- C5: for an output variable whose finite-degree pairs all resolve,
the defuzzified result is the quotient of `sum(degree × mean(params))`
by `sum(degree)` over the pairs, each set represented by the
arithmetic mean of its parameter list, and pairs whose degree is
positive or negative infinity excluded from both sums. -/
theorem C5_defuzzify_weighted_mean (v : Variable)
    (output : List (String × PyFloat))
    (hres : outputResolvable v output = true)
    (hden : 0 < specDefuzzDen output) :
    defuzzOne v output
      = .ok (specDefuzzNum v output / specDefuzzDen output) := by
  unfold defuzzOne
  rw [defuzzFold_spec v output hres 0 0, exceptBind_ok]
  simp only [zero_add, gt_iff_lt, hden, if_pos]
  rfl

/-- Witness for C5 on a two-set output whose second aggregated degree
is positive infinity. -/
theorem C5_witness :
    (outputResolvable varDefuzz outputW = true ∧ 0 < specDefuzzDen outputW) ∧
    defuzzOne varDefuzz outputW
      = .ok (specDefuzzNum varDefuzz outputW / specDefuzzDen outputW) :=
  ⟨⟨by decide, by decide⟩,
   C5_defuzzify_weighted_mean varDefuzz outputW (by decide) (by decide)⟩

/-- Helper for C7: a successful aggregation fold folds `max` of the
strengths of the matching rules over the starting lookup value. -/
theorem aggFold_max (fv : Fv) (rules : List Rule) :
    ∀ acc inferred, rules.foldlM (aggStep fv) acc = .ok inferred →
    ∀ ov os, aggLookup inferred ov os
      = (ruleStrengths rules fv ov os).foldl max (aggLookup acc ov os) := by
  induction rules with
  | nil =>
    intro acc inferred h ov os
    simp only [List.foldlM_nil] at h
    injection h with h
    rw [← h]
    simp [ruleStrengths]
  | cons r rest ih =>
    intro acc inferred h ov os
    rw [List.foldlM_cons] at h
    cases hstep : aggStep fv acc r with
    | error e => rw [hstep, exceptBind_error] at h; cases h
    | ok acc2 =>
      rw [hstep, exceptBind_ok] at h
      have hrec := ih acc2 inferred h ov os
      unfold aggStep at hstep
      cases hs : evalAntecedents fv r.in_vars with
      | error e => rw [hs, exceptBind_error] at hstep; cases hstep
      | ok s =>
        rw [hs, exceptBind_ok] at hstep
        injection hstep with hstep
        by_cases hov : ov = r.out_var
        · by_cases hos : os = r.out_set
          · have hlook : aggLookup acc2 ov os = max (aggLookup acc ov os) s := by
              rw [← hstep]
              unfold aggLookup
              rw [hov, hos, dictGet_dictInsert, if_pos rfl, Option.getD_some,
                dictGet_dictInsert, if_pos rfl, Option.getD_some]
            have hstr : ruleStrengths (r :: rest) fv ov os
                = s :: ruleStrengths rest fv ov os := by
              unfold ruleStrengths
              rw [List.filterMap_cons]
              simp [hov.symm, hos.symm, hs, ruleStrengths]
            rw [hstr, List.foldl_cons, hrec, hlook]
          · have hlook : aggLookup acc2 ov os = aggLookup acc ov os := by
              rw [← hstep]
              unfold aggLookup
              rw [hov, dictGet_dictInsert, if_pos rfl, Option.getD_some,
                dictGet_dictInsert, if_neg hos]
            have hstr : ruleStrengths (r :: rest) fv ov os
                = ruleStrengths rest fv ov os := by
              unfold ruleStrengths
              rw [List.filterMap_cons]
              have : ¬(r.out_var = ov ∧ r.out_set = os) := by
                intro hc
                exact hos hc.2.symm
              simp [this, ruleStrengths]
            rw [hstr, hrec, hlook]
        · have hlook : aggLookup acc2 ov os = aggLookup acc ov os := by
            rw [← hstep]
            unfold aggLookup
            rw [dictGet_dictInsert, if_neg hov]
          have hstr : ruleStrengths (r :: rest) fv ov os
              = ruleStrengths rest fv ov os := by
            unfold ruleStrengths
            rw [List.filterMap_cons]
            have : ¬(r.out_var = ov ∧ r.out_set = os) := by
              intro hc
              exact hov hc.1.symm
            simp [this, ruleStrengths]
          rw [hstr, hrec, hlook]

/-- C7: after a successful aggregation pass, the aggregated degree of
every output pair equals the maximum of the firing strengths of the
rules concluding that pair (0 when none does); a later rule with a
lower strength never overwrites a higher aggregated degree. -/
theorem C7_aggregation_is_max (fv : Fv) (rules : List Rule)
    (inferred : Inferred) (h : aggregateAll rules fv = .ok inferred)
    (ov os : String) :
    aggLookup inferred ov os = (ruleStrengths rules fv ov os).foldl max 0 := by
  have := aggFold_max fv rules [] inferred h ov os
  simpa [aggLookup, dictGet] using this

/-- Witness for C7 on two rules concluding the same pair with
strengths 1/2 and 3/4. -/
theorem C7_witness :
    aggregateAll rulesW fvW = .ok [("o", [("u", 3/4)])] ∧
    aggLookup [("o", [("u", 3/4)])] "o" "u"
      = (ruleStrengths rulesW fvW "o" "u").foldl max 0 :=
  ⟨by decide, C7_aggregation_is_max fvW rulesW [("o", [("u", 3/4)])] (by decide) "o" "u"⟩

/-- Helper for C8: a successful defuzzification fold over all-zero
degrees returns its starting accumulator unchanged. -/
theorem defuzzFold_zero (v : Variable) (output : List (String × PyFloat))
    (hz : ∀ q ∈ output, q.2 = PyFloat.fin 0) :
    ∀ acc r, output.foldlM (defuzzStep v) acc = .ok r → r = acc := by
  induction output with
  | nil =>
    intro acc r h
    injection h with h
    exact h.symm
  | cons p rest ih =>
    intro acc r h
    rw [List.foldlM_cons] at h
    cases hstep : defuzzStep v acc p with
    | error e => rw [hstep, exceptBind_error] at h; cases h
    | ok acc2 =>
      rw [hstep, exceptBind_ok] at h
      have hp := hz p (List.mem_cons_self p rest)
      have hacc : acc2 = acc := by
        unfold defuzzStep at hstep
        rw [hp] at hstep
        cases hfs : dictGet v.fuzzy_sets p.1 with
        | none => rw [hfs] at hstep; cases hstep
        | some fs =>
          rw [hfs] at hstep
          have hstep2 : (if fs.values.length = 0
                then (Except.error "ZeroDivisionError" : Except String (ℚ × ℚ))
                else Except.ok (acc.1 + 0 * meanParams fs, acc.2 + 0))
              = Except.ok acc2 := hstep
          by_cases hlen : fs.values.length = 0
          · rw [if_pos hlen] at hstep2; cases hstep2
          · rw [if_neg hlen] at hstep2
            injection hstep2 with hstep2
            rw [← hstep2]
            simp
      rw [hacc] at h
      exact ih (fun q hq => hz q (List.mem_cons_of_mem _ hq)) acc r h

/-- Helper for C8: a successful defuzzification pass over entries
whose keys all differ from `ov` preserves the result lookup at `ov`. -/
theorem defuzzAll_preserves (sys : FuzzySystem) (inferred : Inferred)
    (ov : String) (hov : ∀ p ∈ inferred, p.1 ≠ ov) :
    ∀ acc results, inferred.foldlM (defuzzVarStep sys) acc = .ok results →
      dictGet results ov = dictGet acc ov := by
  induction inferred with
  | nil =>
    intro acc results h
    injection h with h
    rw [← h]
  | cons p rest ih =>
    intro acc results h
    rw [List.foldlM_cons] at h
    cases hstep : defuzzVarStep sys acc p with
    | error e => rw [hstep, exceptBind_error] at h; cases h
    | ok acc2 =>
      rw [hstep, exceptBind_ok] at h
      have h2 := ih (fun q hq => hov q (List.mem_cons_of_mem _ hq)) acc2 results h
      rw [h2]
      unfold defuzzVarStep at hstep
      cases hv : dictGet sys.vars p.1 with
      | none => rw [hv] at hstep; cases hstep
      | some v =>
        rw [hv] at hstep
        have hstep2 : (exnLift (defuzzOne v (p.2.map fun q => (q.1, PyFloat.fin q.2)))
              >>= fun r => pure (dictInsert acc p.1 r)) = Except.ok acc2 := hstep
        cases hd : exnLift (defuzzOne v (p.2.map fun q => (q.1, PyFloat.fin q.2))) with
        | error e => rw [hd, exceptBind_error] at hstep2; cases hstep2
        | ok r =>
          rw [hd, exceptBind_ok] at hstep2
          injection hstep2 with hstep2
          rw [← hstep2, dictGet_dictInsert,
            if_neg (fun hc => hov p (List.mem_cons_self p rest) hc.symm)]

/-- Helper for C8: within a successful defuzzification pass, an
all-zero entry of `inferred_outputs` makes the results dict hold 0 at
its key (keys assumed unrepeated, as the aggregation stage builds
them). -/
theorem defuzzAll_zero_entry (sys : FuzzySystem) (inferred : Inferred)
    (ov : String) (out : List (String × ℚ))
    (hnodup : (inferred.map Prod.fst).Nodup)
    (hmem : (ov, out) ∈ inferred)
    (hz : allZeroDegrees out = true) :
    ∀ acc results, inferred.foldlM (defuzzVarStep sys) acc = .ok results →
      dictGet results ov = some 0 := by
  induction inferred with
  | nil => simp at hmem
  | cons p rest ih =>
    intro acc results h
    rw [List.foldlM_cons] at h
    cases hstep : defuzzVarStep sys acc p with
    | error e => rw [hstep, exceptBind_error] at h; cases h
    | ok acc2 =>
      rw [hstep, exceptBind_ok] at h
      simp only [List.map_cons, List.nodup_cons] at hnodup
      obtain ⟨hnotin, hnodup2⟩ := hnodup
      rcases List.mem_cons.mp hmem with heq | hmem2
      · have hpov : p.1 = ov := by rw [← heq]
        have hpout : p.2 = out := by rw [← heq]
        unfold defuzzVarStep at hstep
        cases hv : dictGet sys.vars p.1 with
        | none => rw [hv] at hstep; cases hstep
        | some v =>
          rw [hv] at hstep
          have hstepb : (exnLift (defuzzOne v (p.2.map fun q => (q.1, PyFloat.fin q.2)))
                >>= fun r => pure (dictInsert acc p.1 r)) = Except.ok acc2 := hstep
          cases hd : exnLift (defuzzOne v (p.2.map fun q => (q.1, PyFloat.fin q.2))) with
          | error e => rw [hd, exceptBind_error] at hstepb; cases hstepb
          | ok r =>
            rw [hd, exceptBind_ok] at hstepb
            injection hstepb with hstep
            have hr : r = 0 := by
              unfold exnLift at hd
              cases hdo : defuzzOne v (p.2.map fun q => (q.1, PyFloat.fin q.2)) with
              | error e => rw [hdo] at hd; cases hd
              | ok r2 =>
                rw [hdo] at hd
                injection hd with hd
                unfold defuzzOne at hdo
                cases hf : (p.2.map fun q => (q.1, PyFloat.fin q.2)).foldlM
                    (defuzzStep v) (0, 0) with
                | error e => rw [hf, exceptBind_error] at hdo; cases hdo
                | ok nd =>
                  rw [hf, exceptBind_ok] at hdo
                  injection hdo with hdo
                  have hzq : ∀ q ∈ p.2.map (fun q => (q.1, PyFloat.fin q.2)),
                      q.2 = PyFloat.fin 0 := by
                    intro q hq
                    obtain ⟨q0, hq0, hq0e⟩ := List.mem_map.mp hq
                    simp only [allZeroDegrees, List.all_eq_true, beq_iff_eq] at hz
                    rw [← hq0e]
                    have : q0.2 = 0 := hz q0 (by rw [hpout] at hq0; exact hq0)
                    rw [this]
                  have hnd : nd = ((0 : ℚ), (0 : ℚ)) :=
                    defuzzFold_zero v _ hzq (0, 0) nd hf
                  rw [← hd, ← hdo, hnd]
                  norm_num
            have hrest : ∀ q ∈ rest, q.1 ≠ ov := by
              intro q hq hc
              rw [hpov] at hnotin
              exact hnotin (hc ▸ List.mem_map_of_mem Prod.fst hq)
            have := defuzzAll_preserves sys rest ov hrest acc2 results h
            rw [this, ← hstep, hpov, dictGet_dictInsert, if_pos rfl, hr]
      · exact ih hnodup2 hmem2 acc2 results h

/-- C8: if an output variable's aggregated degrees are all zero (no
rule fired for it), a successful defuzzification pass reports that
variable as 0 in the results — present, not missing. -/
theorem C8_unfired_variable_reports_zero (sys : FuzzySystem)
    (inferred : Inferred) (results : List (String × ℚ))
    (ov : String) (out : List (String × ℚ))
    (hnodup : (inferred.map Prod.fst).Nodup)
    (hmem : (ov, out) ∈ inferred)
    (hz : allZeroDegrees out = true)
    (h : defuzzifyAll sys inferred = .ok results) :
    dictGet results ov = some 0 :=
  defuzzAll_zero_entry sys inferred ov out hnodup hmem hz [] results h

/-- Witness for C8 on a one-variable model whose only aggregated
degree is 0. -/
theorem C8_witness :
    ((([("o", [("t", (0:ℚ))])] : Inferred).map Prod.fst).Nodup ∧
      ("o", [("t", (0:ℚ))]) ∈ ([("o", [("t", (0:ℚ))])] : Inferred) ∧
      allZeroDegrees [("t", (0:ℚ))] = true ∧
      defuzzifyAll sysWellFormed [("o", [("t", 0)])] = .ok [("o", 0)]) ∧
    dictGet [("o", (0:ℚ))] "o" = some 0 :=
  ⟨⟨by decide, by decide, by decide, by decide⟩,
   C8_unfired_variable_reports_zero sysWellFormed [("o", [("t", 0)])]
     [("o", 0)] "o" [("t", 0)] (by decide) (by decide) (by decide) (by decide)⟩

/-- Helper for C4: a fuzzification fold over entries that each either
fuzzify cleanly or name an undefined variable, containing at least one
undefined name, aborts with the undefined-variable error of some such
name. -/
theorem fuzzFold_undefined (sys : FuzzySystem) (crisp : List (String × ℚ)) :
    ∀ acc, inputsFuzzifiable sys crisp = true →
    (∃ nx ∈ crisp, dictGet sys.vars nx.1 = none) →
    ∃ n2, dictGet sys.vars n2 = none ∧ (∃ y, (n2, y) ∈ crisp) ∧
      crisp.foldlM (fuzzStep sys) acc = .error (.undefinedVariable n2) := by
  induction crisp with
  | nil =>
    intro acc _ hex
    simp at hex
  | cons p rest ih =>
    intro acc hok hex
    simp only [inputsFuzzifiable, List.all_cons, Bool.and_eq_true] at hok
    obtain ⟨hp, hrest⟩ := hok
    cases hv : dictGet sys.vars p.1 with
    | none =>
      refine ⟨p.1, hv, ⟨p.2, by simp⟩, ?_⟩
      have hstep : fuzzStep sys acc p = .error (.undefinedVariable p.1) := by
        unfold fuzzStep
        rw [hv]
      rw [List.foldlM_cons, hstep, exceptBind_error]
    | some v =>
      unfold inputFuzzifiable at hp
      rw [hv] at hp
      have hp2 : exceptIsOk (fuzzifyVariable v p.2) = true := hp
      obtain ⟨m, hm⟩ : ∃ m, fuzzifyVariable v p.2 = .ok m := by
        cases hfv : fuzzifyVariable v p.2 with
        | ok m => exact ⟨m, rfl⟩
        | error e =>
          rw [hfv] at hp2
          simp [exceptIsOk] at hp2
      have hstep : fuzzStep sys acc p = .ok (dictInsert acc p.1 m) := by
        unfold fuzzStep
        rw [hv]
        show (exnLift (fuzzifyVariable v p.2)
          >>= fun degs => pure (dictInsert acc p.1 degs)) = _
        rw [hm]
        rfl
      have hex2 : ∃ nx ∈ rest, dictGet sys.vars nx.1 = none := by
        obtain ⟨nx, hnx, hnone⟩ := hex
        rcases List.mem_cons.mp hnx with heq | h2
        · rw [heq, hv] at hnone
          cases hnone
        · exact ⟨nx, h2, hnone⟩
      obtain ⟨n2, h1, ⟨y, h2⟩, h3⟩ := ih (dictInsert acc p.1 m) hrest hex2
      exact ⟨n2, h1, ⟨y, List.mem_cons_of_mem _ h2⟩,
        by rw [List.foldlM_cons, hstep, exceptBind_ok, h3]⟩

/-- C4 (amended): if the crisp mapping contains a name that is not a
variable of the model, and every supplied entry either names an
undefined variable or fuzzifies without raising (true in particular
for every model free of degenerate spans and wrong parameter counts),
then the run aborts with an `UndefinedVariableError` identifying an
offending name, and no results are produced. -/
theorem C4_undefined_input_aborts (sys : FuzzySystem)
    (crisp : List (String × ℚ)) (n : String) (x : ℚ)
    (hok : inputsFuzzifiable sys crisp = true)
    (hmem : (n, x) ∈ crisp)
    (hundef : dictGet sys.vars n = none) :
    ∃ n2, dictGet sys.vars n2 = none ∧ (∃ y, (n2, y) ∈ crisp) ∧
      sys.run_simulation crisp = .error (.undefinedVariable n2) := by
  obtain ⟨n2, h1, h2, h3⟩ :=
    fuzzFold_undefined sys crisp [] hok ⟨(n, x), hmem, hundef⟩
  refine ⟨n2, h1, h2, ?_⟩
  unfold FuzzySystem.run_simulation fuzzifyInputs
  rw [h3]
  rfl

/-- Witness for C4 (amended) on a well-formed model with the input
mapping naming the undefined variable `"bad"` second. -/
theorem C4_witness :
    (inputsFuzzifiable sysWellFormed [("a", 1), ("bad", 2)] = true ∧
      dictGet sysWellFormed.vars "bad" = none) ∧
    (∃ n2, dictGet sysWellFormed.vars n2 = none ∧
      (∃ y, (n2, y) ∈ ([("a", 1), ("bad", 2)] : List (String × ℚ))) ∧
      sysWellFormed.run_simulation [("a", 1), ("bad", 2)]
        = .error (.undefinedVariable n2)) :=
  ⟨⟨by decide, by decide⟩,
   C4_undefined_input_aborts sysWellFormed [("a", 1), ("bad", 2)] "bad" 2
     (by decide) (by decide) (by decide)⟩

/-- Helper for C3: with every clause variable present in the
fuzzified dict and every stored degree a number, the antecedent fold
succeeds from any accumulator. -/
theorem antFold_total (fv : Fv) (hsome : fvDegreesSome fv = true)
    (ants : List (String × String × String)) :
    antsVarsPresent fv ants = true →
    ∀ acc : ℚ, ∃ s, ants.foldlM (antStep fv) acc = .ok s := by
  induction ants with
  | nil => intro _ acc; exact ⟨acc, rfl⟩
  | cons cl rest ih =>
    intro hvars acc
    simp only [antsVarsPresent, List.all_cons, Bool.and_eq_true] at hvars
    obtain ⟨hv1, hvrest⟩ := hvars
    obtain ⟨m, hm⟩ := Option.isSome_iff_exists.mp hv1
    obtain ⟨d, hd⟩ : ∃ d, (dictGet m cl.2.1).getD (some 0) = some d := by
      cases hq : dictGet m cl.2.1 with
      | none => exact ⟨0, rfl⟩
      | some q =>
        have hqm : (cl.2.1, q) ∈ m := mem_of_dictGet hq
        have hmm : (cl.1, m) ∈ fv := mem_of_dictGet hm
        simp only [fvDegreesSome, List.all_eq_true] at hsome
        obtain ⟨d, hdq⟩ := Option.isSome_iff_exists.mp
          (hsome (cl.1, m) hmm (cl.2.1, q) hqm)
        exact ⟨d, by rw [Option.getD_some]; exact hdq⟩
    have hg : getDegree fv cl.1 cl.2.1 = .ok (some d) := by
      unfold getDegree
      rw [hm]
      exact congrArg Except.ok hd
    have hstep : antStep fv acc cl = .ok (specCombine acc d cl.2.2) := by
      unfold antStep
      rw [hg, exceptBind_ok, combine_some_eq]
    obtain ⟨s, hs⟩ := ih hvrest (specCombine acc d cl.2.2)
    exact ⟨s, by rw [List.foldlM_cons, hstep, exceptBind_ok, hs]⟩

/-- Helper for C3: the aggregation fold succeeds whenever every
rule's antecedent variables are present and degrees are numbers, and
its result satisfies any key/pair invariant satisfied by the rules'
consequents and the starting accumulator. -/
theorem aggFold_total (fv : Fv) (K : String → Prop) (P : String → String → Prop)
    (hsome : fvDegreesSome fv = true) (rules : List Rule) :
    rulesAntVarsPresent fv rules = true →
    (∀ r ∈ rules, K r.out_var ∧ P r.out_var r.out_set) →
    ∀ acc : Inferred, (∀ p ∈ acc, K p.1 ∧ ∀ q ∈ p.2, P p.1 q.1) →
    ∃ inferred, rules.foldlM (aggStep fv) acc = .ok inferred ∧
      ∀ p ∈ inferred, K p.1 ∧ ∀ q ∈ p.2, P p.1 q.1 := by
  induction rules with
  | nil => intro _ _ acc hacc; exact ⟨acc, rfl, hacc⟩
  | cons r rest ih =>
    intro hvars hKP acc hacc
    simp only [rulesAntVarsPresent, List.all_cons, Bool.and_eq_true] at hvars
    obtain ⟨hv1, hvrest⟩ := hvars
    obtain ⟨s, hs⟩ := antFold_total fv hsome r.in_vars hv1 1
    have hstep : aggStep fv acc r = .ok (dictInsert acc r.out_var
        (dictInsert ((dictGet acc r.out_var).getD []) r.out_set
          (max ((dictGet ((dictGet acc r.out_var).getD []) r.out_set).getD 0) s))) := by
      unfold aggStep evalAntecedents
      rw [hs, exceptBind_ok]
      rfl
    have hacc2 : ∀ p ∈ dictInsert acc r.out_var
        (dictInsert ((dictGet acc r.out_var).getD []) r.out_set
          (max ((dictGet ((dictGet acc r.out_var).getD []) r.out_set).getD 0) s)),
        K p.1 ∧ ∀ q ∈ p.2, P p.1 q.1 := by
      intro p hp
      rcases mem_dictInsert hp with hpe | hpo
      · subst hpe
        refine ⟨(hKP r (List.mem_cons_self r rest)).1, ?_⟩
        intro q hq
        rcases mem_dictInsert hq with hqe | hqo
        · subst hqe
          exact (hKP r (List.mem_cons_self r rest)).2
        · cases ho : dictGet acc r.out_var with
          | none =>
            rw [ho] at hqo
            simp at hqo
          | some m0 =>
            rw [ho] at hqo
            simp only [Option.getD_some] at hqo
            exact (hacc (r.out_var, m0) (mem_of_dictGet ho)).2 q hqo
      · exact hacc p hpo
    obtain ⟨inferred, hinf, hinfP⟩ := ih hvrest
      (fun r2 hr2 => hKP r2 (List.mem_cons_of_mem _ hr2)) _ hacc2
    exact ⟨inferred, by rw [List.foldlM_cons, hstep, exceptBind_ok, hinf], hinfP⟩

/-- Helper for C3: the defuzzification pass succeeds when every
aggregated entry names a defined variable whose listed sets all
resolve. -/
theorem defuzzAll_total (sys : FuzzySystem) (inferred : Inferred) :
    (∀ p ∈ inferred, ∃ v, dictGet sys.vars p.1 = some v ∧
      ∀ q ∈ p.2, setResolvable v q.1 = true) →
    ∀ acc, ∃ results, inferred.foldlM (defuzzVarStep sys) acc = .ok results := by
  induction inferred with
  | nil => intro _ acc; exact ⟨acc, rfl⟩
  | cons p rest ih =>
    intro hres acc
    obtain ⟨v, hv, hsets⟩ := hres p (List.mem_cons_self p rest)
    have hor : outputResolvable v (p.2.map fun q => (q.1, PyFloat.fin q.2)) = true := by
      simp only [outputResolvable, List.all_eq_true]
      intro q hq
      obtain ⟨q0, hq0, hq0e⟩ := List.mem_map.mp hq
      rw [← hq0e]
      simp [PyFloat.isFin, hsets q0 hq0]
    obtain ⟨r0, hone⟩ : ∃ r0,
        defuzzOne v (p.2.map fun q => (q.1, PyFloat.fin q.2)) = .ok r0 := by
      unfold defuzzOne
      rw [defuzzFold_spec v _ hor 0 0, exceptBind_ok]
      exact ⟨_, rfl⟩
    have hstep : defuzzVarStep sys acc p = .ok (dictInsert acc p.1 r0) := by
      unfold defuzzVarStep
      rw [hv]
      show (exnLift (defuzzOne v (p.2.map fun q => (q.1, PyFloat.fin q.2)))
        >>= fun r => pure (dictInsert acc p.1 r)) = _
      rw [hone]
      rfl
    obtain ⟨results, hr⟩ := ih
      (fun p2 hp2 => hres p2 (List.mem_cons_of_mem _ hp2)) (dictInsert acc p.1 r0)
    exact ⟨results, by rw [List.foldlM_cons, hstep, exceptBind_ok, hr]⟩

/-- C3 (amended): once fuzzification succeeds, the run returns a
(possibly empty) results mapping provided additionally that every
rule's antecedent variables are among the supplied inputs, every
fuzzified degree is a number, and every rule's consequent resolves to
a defined variable and a nonempty-parameter fuzzy set; without these
side conditions the run can die with an uncaught exception
(see the counterexample). -/
theorem C3_run_total_when_resolvable (sys : FuzzySystem)
    (crisp : List (String × ℚ)) (fv : Fv)
    (hf : fuzzifyInputs sys crisp = .ok fv)
    (hsome : fvDegreesSome fv = true)
    (hant : rulesAntVarsPresent fv sys.rules = true)
    (hcons : rulesConsequentsResolvable sys = true) :
    ∃ res, sys.run_simulation crisp = .ok res := by
  have hKP : ∀ r ∈ sys.rules,
      (∃ v, dictGet sys.vars r.out_var = some v) ∧
      (∃ v, dictGet sys.vars r.out_var = some v ∧
        setResolvable v r.out_set = true) := by
    intro r hr
    simp only [rulesConsequentsResolvable, List.all_eq_true] at hcons
    have hc := hcons r hr
    unfold consequentResolvable at hc
    cases hv : dictGet sys.vars r.out_var with
    | none => rw [hv] at hc; cases hc
    | some v =>
      rw [hv] at hc
      exact ⟨⟨v, rfl⟩, ⟨v, rfl, hc⟩⟩
  obtain ⟨inferred, hagg, haggP⟩ := aggFold_total fv
    (fun ov => ∃ v, dictGet sys.vars ov = some v)
    (fun ov os => ∃ v, dictGet sys.vars ov = some v ∧ setResolvable v os = true)
    hsome sys.rules hant hKP [] (by simp)
  have hres : ∀ p ∈ inferred, ∃ v, dictGet sys.vars p.1 = some v ∧
      ∀ q ∈ p.2, setResolvable v q.1 = true := by
    intro p hp
    obtain ⟨⟨v, hv⟩, hqs⟩ := haggP p hp
    refine ⟨v, hv, ?_⟩
    intro q hq
    obtain ⟨v2, hv2, hr2⟩ := hqs q hq
    rw [hv] at hv2
    injection hv2 with hv2
    rw [hv2]
    exact hr2
  obtain ⟨results, hdef⟩ := defuzzAll_total sys inferred hres []
  refine ⟨results, ?_⟩
  unfold FuzzySystem.run_simulation fuzzifyInputs aggregateAll defuzzifyAll at *
  rw [hf, exceptBind_ok]
  show (exnLift (sys.rules.foldlM (aggStep fv) []) >>= fun inf2 =>
    inf2.foldlM (defuzzVarStep sys) []) = _
  rw [hagg]
  show inferred.foldlM (defuzzVarStep sys) [] = _
  rw [hdef]

/-- Witness for C3 (amended) on a well-formed one-rule model. -/
theorem C3_witness :
    (fuzzifyInputs sysWellFormed [("a", 1)] = .ok [("a", [("s", some 1)])] ∧
      fvDegreesSome [("a", [("s", some 1)])] = true ∧
      rulesAntVarsPresent [("a", [("s", some 1)])] sysWellFormed.rules = true ∧
      rulesConsequentsResolvable sysWellFormed = true) ∧
    (∃ res, sysWellFormed.run_simulation [("a", 1)] = .ok res) :=
  ⟨⟨by decide, by decide, by decide, by decide⟩,
   C3_run_total_when_resolvable sysWellFormed [("a", 1)] [("a", [("s", some 1)])]
     (by decide) (by decide) (by decide) (by decide)⟩
